import Mathlib

/-!
Verification of the stack-blur streaming filter and its separable 2D pixel
blur, shallowly embedded from `src/lib.rs`.

The generic value type `T` of the Rust code (trait bound `Default + Clone +
Add + AddAssign + SubAssign + Mul<usize> + Div<usize>`) is embedded as an
additive commutative group together with an explicit scalar-division
function `dv : T → Nat → T` (division is the only operation the filter
never folds into its state, it is applied once per emitted output).
`Mul<usize>` is the natural scalar action `n • x`, `T::default()` is `0`.

Rust `i32` lanes are idealized as `Int` (the spec places numeric overflow
out of scope as a caller responsibility); `i32` division truncates toward
zero, which is `Int.tdiv`.  `u32` pixels are `Nat` values, with the `u32`
range invariant `p < 2 ^ 32` carried as a hypothesis where the byte
round-trip needs it.

In-place mutation of the pixel buffer is embedded functionally: the Rust
passes write output `i` into slot `i` only after the filter has consumed
strictly more than `i` inputs (the lag invariant proved below), so each
row/column pass reads exactly the original row/column contents.  A Rust
panic (a failed `debug_assert_eq` or the `chunks_exact_mut` zero-chunk-size
assertion) is embedded as `Except.error b` where `b` is the buffer state at
the moment of the panic.
-/

set_option maxHeartbeats 1600000

/-- State of `StackBlur` from `src/lib.rs` (fields in source order;
`iter` holds the not-yet-consumed suffix of the input, `done` is the
`done` flag, `ops` models the `VecDeque`). -/
@[ext]
structure StackBlur (T : Type) where
  iter : List T
  radius : Nat
  sum : T
  rate : T
  dnom : Nat
  ops : List T
  leading : Nat
  trailing : Nat
  done : Bool

namespace StackBlur

variable {T : Type} [AddCommGroup T]

/-- `StackBlur::new`. -/
def new (iter : List T) (radius : Nat) (ops : List T) : StackBlur T :=
  { iter := iter, radius := radius, sum := 0, rate := 0, dnom := 0,
    ops := ops, leading := 0, trailing := 0, done := true }

/-- The `for sub in 0..=self.radius` loop of `StackBlur::init`, with the
early `break` when the input iterator is exhausted. -/
def initFold : StackBlur T → List Nat → StackBlur T
  | s, [] => s
  | s, sub :: subs =>
    match s.iter with
    | [] => s
    | item :: rest =>
      let mul := s.radius + 1 - sub
      let dnom1 := s.dnom + mul
      let ops1 := s.ops.set sub (s.ops.getD sub 0 - 2 • item)
      let ops2 := ops1.set (sub + s.radius + 1) (ops1.getD (sub + s.radius + 1) 0 + item)
      initFold
        { iter := rest, radius := s.radius, sum := s.sum + mul • item,
          rate := s.rate + item, dnom := dnom1, ops := ops2,
          leading := s.leading,
          trailing := if mul < dnom1 then s.trailing + 1 else s.trailing,
          done := s.done } subs

/-- `StackBlur::init`: reset all state, clear and re-size the ring to
`radius * 2 + 2` zeroes, then run the fill loop (or finish immediately
when the input is empty). -/
def init (s : StackBlur T) : StackBlur T :=
  let s1 : StackBlur T :=
    { iter := s.iter, radius := s.radius, sum := 0, rate := 0, dnom := 0,
      ops := List.replicate (s.radius * 2 + 2) 0,
      leading := 0, trailing := 0, done := false }
  match s.iter with
  | [] => { s1 with done := true }
  | _ :: _ => initFold s1 (List.range (s.radius + 1))

/-- `<StackBlur as Iterator>::next`.  `dv` is the `Div<usize>`
implementation of `T`. -/
def next (dv : T → Nat → T) (s0 : StackBlur T) : Option (T × StackBlur T) :=
  let s := if s0.done then s0.init else s0
  if s.done then none
  else
    let result := dv s.sum s.dnom
    let rate1 := s.rate + s.ops.headD 0
    let sum1 := s.sum + rate1
    let ops1 := s.ops.tail ++ [0]
    let leading2 := if s.leading < s.radius then s.leading + 1 else s.leading
    let dnom2 :=
      if s.leading < s.radius then s.dnom + (s.radius + 1 - (s.leading + 1)) else s.dnom
    if s.trailing = s.radius ∧ s.iter.isEmpty = false then
      let item := s.iter.headD 0
      let opsA := ops1.set s.radius (ops1.getD s.radius 0 - 2 • item)
      let opsB := opsA.set (s.radius * 2 + 1) (opsA.getD (s.radius * 2 + 1) 0 + item)
      some (result,
        { iter := s.iter.tail, radius := s.radius, sum := sum1 + item, rate := rate1 + item,
          dnom := dnom2, ops := opsB, leading := leading2, trailing := s.trailing,
          done := false })
    else if 0 < s.trailing then
      some (result,
        { iter := s.iter, radius := s.radius, sum := sum1, rate := rate1,
          dnom := dnom2 - (s.radius + 1 - s.trailing), ops := ops1,
          leading := leading2, trailing := s.trailing - 1, done := false })
    else
      some (result,
        { iter := s.iter, radius := s.radius, sum := sum1, rate := rate1,
          dnom := dnom2, ops := ops1, leading := leading2, trailing := s.trailing,
          done := true })

/-- Pull up to `fuel` outputs from the iterator (the `while let Some(..)`
driver loops of `blur_horiz` / `blur_vert`). -/
def runBlur (dv : T → Nat → T) : Nat → StackBlur T → List T
  | 0, _ => []
  | fuel + 1, s =>
    match next dv s with
    | none => []
    | some (x, s2) => x :: runBlur dv fuel s2

/-- The state after one `next` call (identity once the iterator is spent). -/
def stepState (dv : T → Nat → T) (s : StackBlur T) : StackBlur T :=
  match next dv s with
  | none => s
  | some (_, s2) => s2

/-- The filter state from which the `k`-th output is emitted: the state of
`StackBlur::new(input, radius, ops).init()` after `k` further `next` calls. -/
def stateBefore (dv : T → Nat → T) (l : List T) (r k : Nat) : StackBlur T :=
  (stepState dv)^[k] ((new l r []).init)

/-- Element `j` of the input sequence (`0` = `T::default()` out of range). -/
def elemD (l : List T) (j : Nat) : T := l.getD j 0

/-- Triangular kernel weight of input index `j` for output index `k`:
`radius + 1 - dist k j`, truncated at `0` (the weight of an offset beyond
`radius`). -/
def tw (r k j : Nat) : Nat := r + 1 - Nat.dist k j

/-- Spec-side weighted numerator of output `k`: the triangular-weighted sum
of the inputs, out-of-range offsets dropped. -/
def tsum (l : List T) (r k : Nat) : T :=
  ∑ j ∈ Finset.range l.length, tw r k j • elemD l j

/-- Spec-side divisor of output `k`: the sum of the weights actually
included (boundary renormalization). -/
def tden (l : List T) (r k : Nat) : Nat :=
  ∑ j ∈ Finset.range l.length, tw r k j

/-- First difference of the triangular weight profile: the coefficient of
input `j` inside `rate` when output `k` is about to be emitted. -/
def rho (r k j : Nat) : Int :=
  if j < k then (if k ≤ j + (r + 1) then -1 else 0)
  else (if j ≤ k + r then 1 else 0)

/-- Closed form of the `rate` field when output `k` is about to be emitted. -/
def trate (l : List T) (r k : Nat) : T :=
  ∑ j ∈ Finset.range l.length, rho r k j • elemD l j

/-- Closed form of ring slot `t` when output `k` is about to be emitted:
slot `t` is popped right after output `k + t`; it carries the `-2·x` impulse
of item `k + t` and the `+x` impulse of item `k + t - (radius + 1)`. -/
def tops (l : List T) (r k t : Nat) : T :=
  (if t ≤ r ∧ k + t < l.length then -(2 • elemD l (k + t)) else 0) +
  (if r + 1 ≤ k + t ∧ k + t - (r + 1) < l.length then elemD l (k + t - (r + 1)) else 0)

/-- Partial triangular mass: `∑ d < m, (r - d)`. -/
def triG (r m : Nat) : Nat := ∑ d ∈ Finset.range m, (r - d)

/-- The filter state from which output `k` is emitted, in closed form. -/
def ideal (l : List T) (r k : Nat) : StackBlur T :=
  { iter := l.drop (k + r + 1), radius := r, sum := tsum l r k, rate := trate l r k,
    dnom := tden l r k,
    ops := List.ofFn fun t : Fin (2 * r + 2) => tops l r k t.val,
    leading := min k r, trailing := min r (l.length - 1 - k), done := false }

/-- Ring slot `t` after the fill loop has folded in the first `p` items. -/
def topsInit (l : List T) (r p t : Nat) : T :=
  (if t < p then -(2 • elemD l t) else 0) +
  (if r + 1 ≤ t ∧ t - (r + 1) < p then elemD l (t - (r + 1)) else 0)

/-- The fill-loop state after the first `p` items have been folded in. -/
def istate (l : List T) (r p : Nat) : StackBlur T :=
  { iter := l.drop p, radius := r,
    sum := ∑ j ∈ Finset.range p, (r + 1 - j) • elemD l j,
    rate := ∑ j ∈ Finset.range p, elemD l j,
    dnom := ∑ j ∈ Finset.range p, (r + 1 - j),
    ops := List.ofFn fun t : Fin (2 * r + 2) => topsInit l r p t.val,
    leading := 0, trailing := p - 1, done := false }

end StackBlur

/-- Rust `i32` division (`Div<usize>` after `splat(rhs as i32)`): truncation
toward zero, i.e. `Int.tdiv`. -/
def intDiv (x : Int) (n : Nat) : Int := Int.tdiv x n

/-- The filter over a sequence of `Int` values, run to exhaustion. -/
def stackblurInt (l : List Int) (r : Nat) : List Int :=
  StackBlur.runBlur intDiv (l.length + 1) (StackBlur.new l r [])

/-- The `ARGB(i32x4)` channel vector: four independent `Int` lanes
(index `0` = alpha = most significant byte, big-endian order). -/
abbrev ARGB : Type := Fin 4 → Int

/-- `impl Div<usize> for ARGB`: lanewise truncating division. -/
def argbDiv (x : ARGB) (n : Nat) : ARGB := fun i => Int.tdiv (x i) n

/-- `ARGB::from_argb`: split a `u32` into its four big-endian bytes. -/
def from_argb (p : Nat) : ARGB := fun i => (p / 2 ^ (8 * (3 - i.val)) % 256 : Nat)

/-- The `i as u8` cast of an `i32` lane: the low 8 bits. -/
def laneByte (x : Int) : Nat := (x % 256).toNat

/-- `ARGB::to_argb`: recompose the four lanes (each cast `as u8`) into a
big-endian `u32`. -/
def to_argb (v : ARGB) : Nat :=
  laneByte (v 0) * 2 ^ 24 + laneByte (v 1) * 2 ^ 16 + laneByte (v 2) * 2 ^ 8 + laneByte (v 3)

/-- The filter over a sequence of `u32` pixels decomposed into `ARGB`
values, run to exhaustion (outputs still as `ARGB` vectors). -/
def argbOutputs (ps : List Nat) (r : Nat) : List ARGB :=
  StackBlur.runBlur argbDiv (ps.length + 1) (StackBlur.new (ps.map from_argb) r [])

/-- One row/column pass of the blur: decompose to `ARGB`, filter, recompose. -/
def blurLine (r : Nat) (row : List Nat) : List Nat :=
  (StackBlur.runBlur argbDiv (row.length + 1)
    (StackBlur.new (row.map from_argb) r [])).map to_argb

/-- The full chunks of `slice::chunks_exact_mut(w)` (callers must ensure
`0 < w`; the remainder `l.length % w` is not part of any chunk). -/
def chunksExact (w : Nat) (l : List Nat) : List (List Nat) :=
  if h : 0 < w ∧ w ≤ l.length then l.take w :: chunksExact w (l.drop w)
  else []
termination_by l.length
decreasing_by
  simp only [List.length_drop]
  omega

/-- The column `col` of the buffer read with stride `w`
(`iter().skip(col).step_by(width)`), of height `h`. -/
def getColumn (buf : List Nat) (w h col : Nat) : List Nat :=
  (List.range h).map fun i => buf.getD (col + i * w) 0

/-- Write the values of a filtered column back at stride `w`. -/
def writeColumn (buf : List Nat) (w col : Nat) (vals : List Nat) : List Nat :=
  (List.range vals.length).foldl (fun b i => b.set (col + i * w) (vals.getD i 0)) buf

/-- `blur_horiz`: the `debug_assert_eq` is the first statement and panics on
a size mismatch with the buffer untouched; `chunks_exact_mut` asserts a
non-zero chunk size; otherwise every full row is filtered in place and the
remainder is untouched. -/
def blur_horiz (argb : List Nat) (width height radius : Nat) :
    Except (List Nat) (List Nat) :=
  if argb.length ≠ width * height then Except.error argb
  else if width = 0 then Except.error argb
  else Except.ok
    ((chunksExact width argb).flatMap (blurLine radius) ++
      argb.drop (argb.length / width * width))

/-- `blur_vert`: the `debug_assert_eq` panics first on a size mismatch;
otherwise each of the `width` columns is filtered in place, left to right. -/
def blur_vert (argb : List Nat) (width height radius : Nat) :
    Except (List Nat) (List Nat) :=
  if argb.length ≠ width * height then Except.error argb
  else Except.ok
    ((List.range width).foldl
      (fun buf col => writeColumn buf width col (blurLine radius (getColumn buf width height col)))
      argb)

/-- `blur`: horizontal pass then vertical pass (a panic in the first pass
aborts before the second). -/
def blur (argb : List Nat) (width height radius : Nat) :
    Except (List Nat) (List Nat) :=
  match blur_horiz argb width height radius with
  | Except.error b => Except.error b
  | Except.ok b => blur_vert b width height radius

/-- The buffer contents after a call, whether or not it panicked (an
`error` carries the buffer state at the moment of the panic). -/
def resultBuf (e : Except (List Nat) (List Nat)) : List Nat :=
  match e with
  | Except.error b => b
  | Except.ok b => b

/-- Lanes of one pixel, as a list. -/
def pixelLanes (p : Nat) : List Int := List.ofFn fun i : Fin 4 => from_argb p i

/-- All channel lanes of all pixels of a buffer. -/
def allLanes (ps : List Nat) : List Int := ps.flatMap pixelLanes

/-- Minimum input lane of a buffer (`255` for an empty buffer; every lane
is a byte, so this is the true minimum whenever the buffer is non-empty). -/
def laneMin (ps : List Nat) : Int := (allLanes ps).foldr min 255

/-- Maximum input lane of a buffer (`0` for an empty buffer). -/
def laneMax (ps : List Nat) : Int := (allLanes ps).foldr max 0

namespace StackBlur

variable {T : Type} [AddCommGroup T]

lemma headD_eq_getD {α : Type} (l : List α) (d : α) : l.headD d = l.getD 0 d := by
  cases l <;> rfl

lemma headD_drop {α : Type} (l : List α) (n : Nat) (d : α) :
    (l.drop n).headD d = l.getD n d := by
  induction n generalizing l with
  | zero => rw [List.drop_zero, headD_eq_getD]
  | succ m ih =>
    cases l with
    | nil => rfl
    | cons a as => simpa using ih as

lemma ofFn_headD {α : Type} {n : Nat} (hn : 0 < n) (f : Fin n → α) (d : α) :
    (List.ofFn f).headD d = f ⟨0, hn⟩ := by
  rw [headD_eq_getD, List.getD_eq_getElem _ _ (by simpa using hn), List.getElem_ofFn]

lemma ofFn_getD {α : Type} {n : Nat} (f : Fin n → α) (t : Nat) (ht : t < n) (d : α) :
    (List.ofFn f).getD t d = f ⟨t, ht⟩ := by
  rw [List.getD_eq_getElem _ _ (by simpa using ht), List.getElem_ofFn]

lemma drop_isEmpty_false {α : Type} (l : List α) (n : Nat) (h : n < l.length) :
    (l.drop n).isEmpty = false := by
  have hlen : (l.drop n).length ≠ 0 := by
    rw [List.length_drop]; omega
  cases hd : l.drop n with
  | nil => rw [hd] at hlen; simp at hlen
  | cons a as => rfl

lemma drop_min_length {α : Type} (l : List α) (n : Nat) :
    l.drop (min l.length n) = l.drop n := by
  rcases le_total l.length n with h | h
  · rw [min_eq_left h, List.drop_eq_nil_of_le (le_refl _), List.drop_eq_nil_of_le h]
  · rw [min_eq_right h]

lemma rho_succ (r k j : Nat) :
    rho r (k + 1) j =
      rho r k j + (if j = k then (-2 : Int) else 0) +
        (if j = k + r + 1 then (1 : Int) else 0) +
        (if j + r + 1 = k then (1 : Int) else 0) := by
  unfold rho
  split_ifs <;> omega

lemma tw_cast_succ (r k j : Nat) :
    ((tw r (k + 1) j : Nat) : Int) = (tw r k j : Nat) + rho r (k + 1) j := by
  unfold tw rho Nat.dist
  split_ifs <;> omega

lemma neg_two_zsmul (x : T) : (-2 : Int) • x = -(2 • x) := by
  have h : ((-2 : Int)) = -((2 : Nat) : Int) := by norm_num
  rw [h, neg_zsmul, natCast_zsmul]

lemma sum_delta_smul (f : Nat → T) (N a : Nat) (c : Int) :
    (∑ j ∈ Finset.range N, (if j = a then c else 0) • f j) =
      if a < N then c • f a else 0 := by
  have h1 : ∀ j ∈ Finset.range N,
      (if j = a then c else 0) • f j = (if j = a then c • f a else 0) := by
    intro j _
    by_cases h : j = a
    · subst h; simp
    · simp [h]
  rw [Finset.sum_congr rfl h1, Finset.sum_ite_eq' (Finset.range N) a fun _ => c • f a]
  simp [Finset.mem_range]

end StackBlur

namespace StackBlur

variable {T : Type} [AddCommGroup T]

lemma tops_zero (l : List T) (r k : Nat) (hk : k < l.length) :
    tops l r k 0 = -(2 • elemD l k) + (if r + 1 ≤ k then elemD l (k - (r + 1)) else 0) := by
  unfold tops
  rw [if_pos ⟨Nat.zero_le r, by simpa using hk⟩]
  have e0 : k + 0 = k := rfl
  rw [e0]
  congr 1
  by_cases h : r + 1 ≤ k
  · rw [if_pos ⟨h, by omega⟩, if_pos h]
  · rw [if_neg (by omega), if_neg h]

lemma trate_succ (l : List T) (r k : Nat) (hk : k < l.length) :
    trate l r (k + 1) =
      trate l r k + (-(2 • elemD l k)) +
        (if r + 1 ≤ k then elemD l (k - (r + 1)) else 0) +
        (if k + r + 1 < l.length then elemD l (k + r + 1) else 0) := by
  unfold trate
  have hstep : ∀ j ∈ Finset.range l.length,
      rho r (k + 1) j • elemD l j =
        rho r k j • elemD l j + ((if j = k then (-2 : Int) else 0) • elemD l j +
          ((if j = k + r + 1 then (1 : Int) else 0) • elemD l j +
            (if j + r + 1 = k then (1 : Int) else 0) • elemD l j)) := by
    intro j _
    rw [rho_succ, add_zsmul, add_zsmul, add_zsmul]
    abel
  rw [Finset.sum_congr rfl hstep, Finset.sum_add_distrib, Finset.sum_add_distrib,
    Finset.sum_add_distrib, sum_delta_smul, sum_delta_smul, if_pos hk]
  have hd3 : (∑ j ∈ Finset.range l.length, (if j + r + 1 = k then (1 : Int) else 0) • elemD l j)
      = if r + 1 ≤ k then elemD l (k - (r + 1)) else 0 := by
    by_cases hck : r + 1 ≤ k
    · have hcongr : ∀ j ∈ Finset.range l.length,
          (if j + r + 1 = k then (1 : Int) else 0) • elemD l j =
            (if j = k - (r + 1) then (1 : Int) else 0) • elemD l j := by
        intro j _
        congr 1
        exact if_congr (by omega) rfl rfl
      rw [Finset.sum_congr rfl hcongr, sum_delta_smul, if_pos (by omega), if_pos hck, one_zsmul]
    · have hcongr : ∀ j ∈ Finset.range l.length,
          (if j + r + 1 = k then (1 : Int) else 0) • elemD l j = 0 := by
        intro j _
        rw [if_neg (by omega), zero_zsmul]
      rw [Finset.sum_congr rfl hcongr, Finset.sum_const_zero, if_neg hck]
  rw [hd3]
  by_cases hc2 : k + r + 1 < l.length
  · rw [if_pos hc2, if_pos hc2, neg_two_zsmul, one_zsmul]
    abel
  · rw [if_neg hc2, if_neg hc2, neg_two_zsmul]
    abel

lemma trate_succ_eq (l : List T) (r k : Nat) (hk : k < l.length) :
    trate l r (k + 1) = trate l r k + tops l r k 0 +
      (if k + r + 1 < l.length then elemD l (k + r + 1) else 0) := by
  rw [trate_succ l r k hk, tops_zero l r k hk]
  abel

lemma tsum_succ (l : List T) (r k : Nat) :
    tsum l r (k + 1) = tsum l r k + trate l r (k + 1) := by
  unfold tsum trate
  rw [← Finset.sum_add_distrib]
  refine Finset.sum_congr rfl fun j _ => ?_
  rw [← natCast_zsmul (elemD l j) (tw r (k + 1) j), ← natCast_zsmul (elemD l j) (tw r k j),
    tw_cast_succ, add_zsmul]

lemma triG_succ (r m : Nat) : triG r (m + 1) = triG r m + (r - m) :=
  Finset.sum_range_succ _ _

lemma triG_stable (r m : Nat) (h : r ≤ m) : triG r m = triG r r := by
  unfold triG
  refine (Finset.sum_subset (Finset.range_subset.mpr h) ?_).symm
  intro x _ hnx
  have hx : r ≤ x := by simpa using hnx
  omega

lemma triG_le (r m : Nat) : triG r m ≤ triG r r := by
  rcases le_total r m with h | h
  · rw [triG_stable r m h]
  · exact Finset.sum_le_sum_of_subset (Finset.range_subset.mpr h)

lemma triG_self_mul_two (r : Nat) : triG r r * 2 = r * (r + 1) := by
  have h1 : triG r r = ∑ d ∈ Finset.range r, (d + 1) := by
    unfold triG
    rw [← Finset.sum_range_reflect (fun d => d + 1) r]
    refine Finset.sum_congr rfl fun j hj => ?_
    have hj2 : j < r := Finset.mem_range.mp hj
    omega
  have h2 : ∑ i ∈ Finset.range (r + 1), i = ∑ d ∈ Finset.range r, (d + 1) := by
    rw [Finset.sum_range_succ']
    simp
  have h3 := Finset.sum_range_id_mul_two (r + 1)
  rw [h1, ← h2, h3, Nat.add_sub_cancel, Nat.mul_comm]

lemma tw_eq_left (r k j : Nat) (h : j ≤ k) : tw r k j = r + 1 - (k - j) := by
  unfold tw Nat.dist
  omega

lemma tw_eq_right (r k j : Nat) (h : k ≤ j) : tw r k j = r + 1 - (j - k) := by
  unfold tw Nat.dist
  omega

lemma tden_closed (l : List T) (r k : Nat) (hk : k < l.length) :
    tden l r k = (r + 1) + triG r k + triG r (l.length - 1 - k) := by
  unfold tden
  rw [Finset.range_eq_Ico,
    ← Finset.sum_Ico_consecutive _ (Nat.zero_le (k + 1)) (by omega : k + 1 ≤ l.length),
    ← Finset.range_eq_Ico, Finset.sum_range_succ]
  have hleft : ∑ j ∈ Finset.range k, tw r k j = triG r k := by
    have hre : triG r k = ∑ j ∈ Finset.range k, (r - (k - 1 - j)) := by
      unfold triG
      rw [← Finset.sum_range_reflect (fun d => r - d) k]
    rw [hre]
    refine Finset.sum_congr rfl fun j hj => ?_
    have hj2 : j < k := Finset.mem_range.mp hj
    rw [tw_eq_left r k j (by omega)]
    omega
  have hcen : tw r k k = r + 1 := by
    unfold tw
    rw [Nat.dist_self, Nat.sub_zero]
  have hright : ∑ j ∈ Finset.Ico (k + 1) l.length, tw r k j = triG r (l.length - 1 - k) := by
    rw [Finset.sum_Ico_eq_sum_range]
    unfold triG
    have he : l.length - (k + 1) = l.length - 1 - k := by omega
    rw [he]
    refine Finset.sum_congr rfl fun i _ => ?_
    rw [tw_eq_right r k (k + 1 + i) (by omega)]
    omega
  rw [hleft, hcen, hright]
  omega

lemma tden_pos (l : List T) (r k : Nat) (hk : k < l.length) : 0 < tden l r k := by
  rw [tden_closed l r k hk]
  omega

lemma tden_le (l : List T) (r k : Nat) (hk : k < l.length) :
    tden l r k ≤ (r + 1) ^ 2 := by
  rw [tden_closed l r k hk]
  have h1 := triG_le r k
  have h2 := triG_le r (l.length - 1 - k)
  have h3 := triG_self_mul_two r
  have h4 : (r + 1) ^ 2 = r * (r + 1) + (r + 1) := by ring
  linarith

lemma tden_full (l : List T) (r k : Nat) (hk1 : r ≤ k) (hk2 : k + r + 1 ≤ l.length) :
    tden l r k = (r + 1) ^ 2 := by
  have hk : k < l.length := by omega
  rw [tden_closed l r k hk, triG_stable r k hk1, triG_stable r (l.length - 1 - k) (by omega)]
  have h3 := triG_self_mul_two r
  have h4 : (r + 1) ^ 2 = r * (r + 1) + (r + 1) := by ring
  linarith

end StackBlur

namespace StackBlur

variable {T : Type} [AddCommGroup T]

lemma tops_shift (l : List T) (r k t : Nat) (h : t ≠ r ∨ ¬ k + r + 1 < l.length) :
    tops l r (k + 1) t = tops l r k (t + 1) := by
  unfold tops
  have e1 : k + 1 + t = k + (t + 1) := by omega
  rw [e1]
  congr 1
  exact if_congr (by omega) rfl rfl

lemma tops_set_r (l : List T) (r k : Nat) (hc : k + r + 1 < l.length) :
    tops l r (k + 1) r = tops l r k (r + 1) - 2 • elemD l (k + r + 1) := by
  unfold tops
  rw [if_pos (⟨le_refl r, by omega⟩ : r ≤ r ∧ k + 1 + r < l.length)]
  rw [if_pos (⟨by omega, by omega⟩ : r + 1 ≤ k + 1 + r ∧ k + 1 + r - (r + 1) < l.length)]
  rw [if_neg (by omega : ¬(r + 1 ≤ r ∧ k + (r + 1) < l.length))]
  rw [if_pos (⟨by omega, by omega⟩ : r + 1 ≤ k + (r + 1) ∧ k + (r + 1) - (r + 1) < l.length)]
  have e2 : k + 1 + r - (r + 1) = k := by omega
  have e3 : k + (r + 1) - (r + 1) = k := by omega
  rw [e2, e3]
  have e1 : k + 1 + r = k + r + 1 := by omega
  rw [e1]
  abel

lemma tops_last (l : List T) (r k : Nat) :
    tops l r (k + 1) (2 * r + 1) =
      if k + r + 1 < l.length then elemD l (k + r + 1) else 0 := by
  unfold tops
  rw [if_neg (by omega : ¬(2 * r + 1 ≤ r ∧ k + 1 + (2 * r + 1) < l.length)), zero_add]
  have e1 : k + 1 + (2 * r + 1) - (r + 1) = k + r + 1 := by omega
  rw [e1]
  exact if_congr (by omega) rfl rfl

lemma tops_big (l : List T) (r k t : Nat) (h1 : r + 1 ≤ t) (h2 : ¬ k + t - (r + 1) < l.length) :
    tops l r k t = 0 := by
  unfold tops
  rw [if_neg (by omega), if_neg (by omega), zero_add]

end StackBlur

namespace StackBlur

variable {T : Type} [AddCommGroup T]

lemma ideal_iter (l : List T) (r k : Nat) : (ideal l r k).iter = l.drop (k + r + 1) := rfl

lemma ideal_radius (l : List T) (r k : Nat) : (ideal l r k).radius = r := rfl

lemma ideal_sum (l : List T) (r k : Nat) : (ideal l r k).sum = tsum l r k := rfl

lemma ideal_rate (l : List T) (r k : Nat) : (ideal l r k).rate = trate l r k := rfl

lemma ideal_dnom (l : List T) (r k : Nat) : (ideal l r k).dnom = tden l r k := rfl

lemma ideal_ops (l : List T) (r k : Nat) :
    (ideal l r k).ops = List.ofFn fun t : Fin (2 * r + 2) => tops l r k t.val := rfl

lemma ideal_leading (l : List T) (r k : Nat) : (ideal l r k).leading = min k r := rfl

lemma ideal_trailing (l : List T) (r k : Nat) :
    (ideal l r k).trailing = min r (l.length - 1 - k) := rfl

lemma ideal_done (l : List T) (r k : Nat) : (ideal l r k).done = false := rfl

lemma headD_drop_elemD (l : List T) (n : Nat) : (l.drop n).headD 0 = elemD l n :=
  headD_drop l n 0

lemma ops_head (l : List T) (r k : Nat) :
    (List.ofFn fun t : Fin (2 * r + 2) => tops l r k t.val).headD 0 = tops l r k 0 := by
  rw [ofFn_headD (by omega)]

lemma base_length (l : List T) (r k : Nat) :
    ((List.ofFn fun t : Fin (2 * r + 2) => tops l r k t.val).tail ++ [0]).length = 2 * r + 2 := by
  simp [List.length_tail]

lemma base_get_lt (l : List T) (r k i : Nat) (hi : i < 2 * r + 1)
    (h : i < ((List.ofFn fun t : Fin (2 * r + 2) => tops l r k t.val).tail ++ [0]).length) :
    ((List.ofFn fun t : Fin (2 * r + 2) => tops l r k t.val).tail ++ [0])[i] =
      tops l r k (i + 1) := by
  rw [List.getElem_append_left (by simp [List.length_tail]; omega)]
  rw [List.getElem_tail, List.getElem_ofFn]

lemma base_get_last (l : List T) (r k i : Nat) (hi : 2 * r + 1 ≤ i)
    (h : i < ((List.ofFn fun t : Fin (2 * r + 2) => tops l r k t.val).tail ++ [0]).length) :
    ((List.ofFn fun t : Fin (2 * r + 2) => tops l r k t.val).tail ++ [0])[i] =
      (0 : T) := by
  rw [List.getElem_append_right (by simp [List.length_tail]; omega)]
  simp [List.length_tail]

lemma base_getD_r (l : List T) (r k : Nat) :
    ((List.ofFn fun t : Fin (2 * r + 2) => tops l r k t.val).tail ++ [0]).getD r 0 =
      tops l r k (r + 1) := by
  rw [List.getD_eq_getElem _ _ (by rw [base_length]; omega)]
  exact base_get_lt l r k r (by omega) _

end StackBlur

namespace StackBlur

variable {T : Type} [AddCommGroup T]

theorem next_ideal (dv : T → Nat → T) (l : List T) (r k : Nat) (hk1 : k + 1 < l.length) :
    next dv (ideal l r k) = some (dv (tsum l r k) (tden l r k), ideal l r (k + 1)) := by
  have hk : k < l.length := by omega
  unfold next
  simp only [ideal_done, ideal_iter, ideal_radius, ideal_sum, ideal_rate, ideal_dnom,
    ideal_ops, ideal_leading, ideal_trailing, Bool.false_eq_true, if_false,
    ops_head, headD_drop_elemD]
  rcases Nat.lt_or_ge (k + r + 1) l.length with hc | hc
  · rw [if_pos ⟨by omega, drop_isEmpty_false l _ (by omega)⟩]
    refine congrArg some (congrArg (Prod.mk (dv (tsum l r k) (tden l r k))) ?_)
    simp only [ideal, StackBlur.mk.injEq]
    refine ⟨?_, trivial, ?_, ?_, ?_, ?_, ?_, ?_, trivial⟩
    · rw [List.tail_drop]
      have e : k + r + 1 + 1 = k + 1 + r + 1 := by omega
      rw [e]
    · rw [tsum_succ l r k, trate_succ_eq l r k hk, if_pos hc]
      abel
    · rw [trate_succ_eq l r k hk, if_pos hc]
    · have h1 := tden_closed l r k hk
      have h2 := tden_closed l r (k + 1) hk1
      have h3 := triG_succ r k
      have h4 : triG r (l.length - 1 - k) = triG r r := triG_stable _ _ (by omega)
      have h5 : triG r (l.length - 1 - (k + 1)) = triG r r := triG_stable _ _ (by omega)
      split_ifs with hif <;> omega
    · refine List.ext_getElem ?_ ?_
      · rw [List.length_set, List.length_set, base_length, List.length_ofFn]
      · intro i h1 h2
        have hi : i < 2 * r + 2 := by rw [List.length_ofFn] at h2; exact h2
        rw [List.getElem_ofFn, List.getElem_set, List.getElem_set]
        by_cases hA : r * 2 + 1 = i
        · have hA2 : i = 2 * r + 1 := by omega
          subst hA2
          rw [if_pos hA]
          rw [List.getD_eq_getElem _ _ (by rw [List.length_set, base_length]; omega),
            List.getElem_set, if_neg (by omega)]
          rw [base_get_last l r k (r * 2 + 1) (by omega), tops_last, if_pos hc, zero_add]
        · rw [if_neg hA]
          by_cases hB : r = i
          · rw [if_pos hB]
            rw [base_getD_r]
            subst hB
            rw [tops_set_r l r k hc]
          · rw [if_neg hB]
            rw [base_get_lt l r k i (by omega)]
            rw [tops_shift l r k i (Or.inl (by omega))]
    · split_ifs with hif <;> omega
    · omega
  · have hemp : (List.drop (k + r + 1) l).isEmpty = true := by
      rw [List.drop_eq_nil_of_le (by omega)]
      rfl
    rw [if_neg (by rw [hemp]; intro hand; exact absurd hand.2 (by simp))]
    rw [if_pos (show 0 < r ⊓ (l.length - 1 - k) by omega)]
    refine congrArg some (congrArg (Prod.mk (dv (tsum l r k) (tden l r k))) ?_)
    simp only [ideal, StackBlur.mk.injEq]
    refine ⟨?_, trivial, ?_, ?_, ?_, ?_, ?_, ?_, trivial⟩
    · rw [List.drop_eq_nil_of_le (by omega), List.drop_eq_nil_of_le (by omega)]
    · rw [tsum_succ l r k, trate_succ_eq l r k hk, if_neg (by omega)]
      abel
    · rw [trate_succ_eq l r k hk, if_neg (by omega), add_zero]
    · have h1 := tden_closed l r k hk
      have h2 := tden_closed l r (k + 1) hk1
      have h3 := triG_succ r k
      have he : l.length - 1 - k = (l.length - 1 - (k + 1)) + 1 := by omega
      have h4 : triG r (l.length - 1 - k) =
          triG r (l.length - 1 - (k + 1)) + (r - (l.length - 1 - (k + 1))) := by
        rw [he, triG_succ]
      split_ifs with hif <;> omega
    · refine List.ext_getElem ?_ ?_
      · rw [base_length, List.length_ofFn]
      · intro i h1 h2
        have hi : i < 2 * r + 2 := by rw [List.length_ofFn] at h2; exact h2
        rw [List.getElem_ofFn]
        by_cases hA : i = 2 * r + 1
        · subst hA
          rw [base_get_last l r k (2 * r + 1) (by omega), tops_last, if_neg (by omega)]
        · rw [base_get_lt l r k i (by omega)]
          rw [tops_shift l r k i (Or.inr (by omega))]
    · split_ifs with hif <;> omega
    · omega

end StackBlur

namespace StackBlur

variable {T : Type} [AddCommGroup T]

theorem next_ideal_last (dv : T → Nat → T) (l : List T) (r k : Nat) (hk : k + 1 = l.length) :
    ∃ s2 : StackBlur T, next dv (ideal l r k) = some (dv (tsum l r k) (tden l r k), s2) ∧
      s2.done = true ∧ s2.iter = [] := by
  have hk0 : k < l.length := by omega
  have hnil : List.drop (k + r + 1) l = [] := List.drop_eq_nil_of_le (by omega)
  unfold next
  simp only [ideal_done, ideal_iter, ideal_radius, ideal_sum, ideal_rate, ideal_dnom,
    ideal_ops, ideal_leading, ideal_trailing, Bool.false_eq_true, if_false,
    ops_head, headD_drop_elemD]
  rw [if_neg (by rw [hnil]; intro hand; exact absurd hand.2 (by simp))]
  rw [if_neg (by omega : ¬ 0 < r ⊓ (l.length - 1 - k))]
  refine ⟨_, rfl, rfl, ?_⟩
  exact hnil

theorem runBlur_done (dv : T → Nat → T) (s : StackBlur T) (h1 : s.done = true)
    (h2 : s.iter = []) : ∀ fuel, runBlur dv fuel s = [] := by
  intro fuel
  cases fuel with
  | zero => rfl
  | succ m =>
    have hn : next dv s = none := by
      unfold next
      rw [h1]
      simp only [if_true, init, h2]
    unfold runBlur
    rw [hn]

end StackBlur

namespace StackBlur

variable {T : Type} [AddCommGroup T]

lemma topsInit_getD (l : List T) (r p t : Nat) (ht : t < 2 * r + 2) :
    (List.ofFn fun u : Fin (2 * r + 2) => topsInit l r p u.val).getD t 0 = topsInit l r p t := by
  rw [ofFn_getD _ t ht]

lemma topsInit_self (l : List T) (r p : Nat) (hpr : p ≤ r) : topsInit l r p p = 0 := by
  unfold topsInit
  rw [if_neg (by omega), if_neg (by omega), add_zero]

lemma topsInit_far (l : List T) (r p : Nat) : topsInit l r p (p + r + 1) = 0 := by
  unfold topsInit
  rw [if_neg (by omega), if_neg (by omega), add_zero]

lemma initFold_step (l : List T) (r p : Nat) (hp : p < l.length) (hpr : p ≤ r)
    (subs : List Nat) :
    initFold (istate l r p) (p :: subs) = initFold (istate l r (p + 1)) subs := by
  have hdrop : l.drop p = elemD l p :: l.drop (p + 1) := by
    rw [List.drop_eq_getElem_cons hp]
    congr 1
    rw [elemD, List.getD_eq_getElem _ _ hp]
  conv_lhs => unfold initFold
  simp only [istate, hdrop]
  refine congrArg (fun s => initFold s subs) ?_
  simp only [StackBlur.mk.injEq]
  refine ⟨trivial, trivial, ?_, ?_, ?_, ?_, trivial, ?_, trivial⟩
  · rw [Finset.sum_range_succ]
  · rw [Finset.sum_range_succ]
  · rw [Finset.sum_range_succ]
  · refine List.ext_getElem ?_ ?_
    · simp [List.length_set]
    · intro i h1 h2
      have hi : i < 2 * r + 2 := by rw [List.length_ofFn] at h2; exact h2
      rw [List.getElem_ofFn, List.getElem_set, List.getElem_set]
      dsimp only
      by_cases hA : p + r + 1 = i
      · rw [if_pos hA]
        rw [List.getD_eq_getElem _ _ (by rw [List.length_set, List.length_ofFn]; omega),
          List.getElem_set, if_neg (by omega), List.getElem_ofFn]
        dsimp only
        have hA2 : i = p + r + 1 := by omega
        subst hA2
        rw [topsInit_far]
        unfold topsInit
        rw [if_neg (by omega), if_pos ⟨by omega, by omega⟩]
        have e : p + r + 1 - (r + 1) = p := by omega
        rw [e, zero_add]
      · rw [if_neg hA]
        by_cases hB : p = i
        · rw [if_pos hB]
          rw [topsInit_getD l r p p (by omega), topsInit_self l r p hpr]
          subst hB
          unfold topsInit
          rw [if_pos (by omega), if_neg (by omega), add_zero, zero_sub]
        · rw [if_neg hB, List.getElem_ofFn]
          dsimp only
          unfold topsInit
          congr 1
          · exact if_congr (by omega) rfl rfl
          · exact if_congr (by omega) rfl rfl
  · by_cases hp0 : p = 0
    · subst hp0
      rw [if_neg (by simp)]
    · have hsum : r + 1 - 0 ≤ ∑ j ∈ Finset.range p, (r + 1 - j) :=
        Finset.single_le_sum (fun i _ => Nat.zero_le _) (Finset.mem_range.mpr (by omega))
      rw [if_pos (by omega)]
      omega

end StackBlur

namespace StackBlur

variable {T : Type} [AddCommGroup T]

lemma initFold_istate (l : List T) (r : Nat) :
    ∀ n p, p + n = r + 1 → p ≤ min l.length (r + 1) →
      initFold (istate l r p) (List.range' p n) = istate l r (min l.length (r + 1)) := by
  intro n
  induction n with
  | zero =>
    intro p hpn hple
    have hpe : p = min l.length (r + 1) := by omega
    rw [List.range'_zero, hpe]
    rfl
  | succ m ih =>
    intro p hpn hple
    rw [List.range'_succ]
    by_cases hpN : p < l.length
    · rw [initFold_step l r p hpN (by omega)]
      exact ih (p + 1) (by omega) (by omega)
    · have hmin : min l.length (r + 1) = p := by omega
      have hnil : l.drop p = [] := List.drop_eq_nil_of_le (by omega)
      rw [hmin]
      conv_lhs => unfold initFold
      simp only [istate, hnil]

lemma istate_zero (l : List T) (r : Nat) :
    ({ iter := l, radius := r, sum := 0, rate := 0, dnom := 0,
       ops := List.replicate (r * 2 + 2) 0, leading := 0, trailing := 0,
       done := false } : StackBlur T) = istate l r 0 := by
  simp only [istate, StackBlur.mk.injEq]
  refine ⟨(List.drop_zero l).symm, trivial, (Finset.sum_range_zero _).symm,
    (Finset.sum_range_zero _).symm, (Finset.sum_range_zero _).symm, ?_, trivial, trivial, trivial⟩
  refine List.ext_getElem ?_ ?_
  · simp
    omega
  · intro i h1 h2
    rw [List.getElem_replicate, List.getElem_ofFn]
    dsimp only
    unfold topsInit
    rw [if_neg (by omega), if_neg (by omega), add_zero]

lemma istate_min_eq_ideal (l : List T) (r : Nat) (hl : l ≠ []) :
    istate l r (min l.length (r + 1)) = ideal l r 0 := by
  have hN : 0 < l.length := List.length_pos.mpr hl
  have htw : ∀ j : Nat, tw r 0 j = r + 1 - j := by
    intro j
    unfold tw
    rw [Nat.dist_zero_left]
  have hsub : Finset.range (min l.length (r + 1)) ⊆ Finset.range l.length :=
    Finset.range_subset.mpr (min_le_left _ _)
  simp only [istate, ideal, StackBlur.mk.injEq]
  refine ⟨?_, trivial, ?_, ?_, ?_, ?_, ?_, ?_, trivial⟩
  · rw [drop_min_length]
    have e : 0 + r + 1 = r + 1 := by omega
    rw [e]
  · have h1 : tsum l r 0 = ∑ j ∈ Finset.range l.length, (r + 1 - j) • elemD l j :=
      Finset.sum_congr rfl fun j _ => by rw [htw j]
    have h2 : ∑ j ∈ Finset.range (min l.length (r + 1)), (r + 1 - j) • elemD l j =
        ∑ j ∈ Finset.range l.length, (r + 1 - j) • elemD l j := by
      refine Finset.sum_subset hsub ?_
      intro j hj hnj
      rw [Finset.mem_range] at hj
      rw [Finset.mem_range] at hnj
      rw [show r + 1 - j = 0 from by omega, zero_smul]
    rw [h1]
    exact h2
  · have h1 : trate l r 0 =
        ∑ j ∈ Finset.range l.length, (if j ≤ r then (1 : Int) else 0) • elemD l j := by
      refine Finset.sum_congr rfl fun j _ => ?_
      unfold rho
      rw [if_neg (by omega)]
      congr 1
      exact if_congr (by omega) rfl rfl
    have h2 : ∑ j ∈ Finset.range (min l.length (r + 1)), (if j ≤ r then (1 : Int) else 0) • elemD l j =
        ∑ j ∈ Finset.range l.length, (if j ≤ r then (1 : Int) else 0) • elemD l j := by
      refine Finset.sum_subset hsub ?_
      intro j hj hnj
      rw [Finset.mem_range] at hj
      rw [Finset.mem_range] at hnj
      rw [if_neg (by omega), zero_zsmul]
    have h3 : ∑ j ∈ Finset.range (min l.length (r + 1)), elemD l j =
        ∑ j ∈ Finset.range (min l.length (r + 1)), (if j ≤ r then (1 : Int) else 0) • elemD l j := by
      refine Finset.sum_congr rfl fun j hj => ?_
      rw [Finset.mem_range] at hj
      rw [if_pos (by omega), one_zsmul]
    rw [h1, ← h2]
    exact h3
  · have h1 : tden l r 0 = ∑ j ∈ Finset.range l.length, (r + 1 - j) :=
      Finset.sum_congr rfl fun j _ => htw j
    have h2 : ∑ j ∈ Finset.range (min l.length (r + 1)), (r + 1 - j) =
        ∑ j ∈ Finset.range l.length, (r + 1 - j) := by
      refine Finset.sum_subset hsub ?_
      intro j hj hnj
      rw [Finset.mem_range] at hj
      rw [Finset.mem_range] at hnj
      omega
    rw [h1]
    exact h2
  · refine congrArg List.ofFn (funext fun t => ?_)
    unfold topsInit tops
    have ht := t.isLt
    congr 1
    · refine if_congr (by omega) ?_ rfl
      have e : 0 + t.val = t.val := by omega
      rw [e]
    · refine if_congr (by omega) ?_ rfl
      have e : 0 + t.val = t.val := by omega
      rw [e]
  · omega
  · omega

theorem init_new_eq (l : List T) (r : Nat) (ops0 : List T) (hl : l ≠ []) :
    (new l r ops0).init = ideal l r 0 := by
  cases l with
  | nil => exact absurd rfl hl
  | cons a as =>
    show init (new (a :: as) r ops0) = ideal (a :: as) r 0
    conv_lhs => unfold init new
    dsimp only
    rw [istate_zero (a :: as) r, List.range_eq_range']
    rw [initFold_istate (a :: as) r (r + 1) 0 (by omega) (by omega)]
    exact istate_min_eq_ideal (a :: as) r hl

end StackBlur

namespace StackBlur

variable {T : Type} [AddCommGroup T]

theorem next_new_nil (dv : T → Nat → T) (r : Nat) (ops0 : List T) :
    next dv (new ([] : List T) r ops0) = none := rfl

theorem next_new_eq (dv : T → Nat → T) (l : List T) (r : Nat) (ops0 : List T) (hl : l ≠ []) :
    next dv (new l r ops0) = next dv (ideal l r 0) := by
  have h1 : (new l r ops0).init = ideal l r 0 := init_new_eq l r ops0 hl
  have hd : (new l r ops0).done = true := rfl
  unfold next
  rw [hd, ideal_done]
  simp only [Bool.false_eq_true, if_false, if_true, h1]

theorem runBlur_ideal (dv : T → Nat → T) (l : List T) (r : Nat) :
    ∀ fuel k, k < l.length → l.length - k ≤ fuel →
      runBlur dv fuel (ideal l r k) =
        (List.range (l.length - k)).map fun j => dv (tsum l r (k + j)) (tden l r (k + j)) := by
  intro fuel
  induction fuel with
  | zero =>
    intro k hk hf
    exact absurd hf (by omega)
  | succ m ih =>
    intro k hk hf
    by_cases hk1 : k + 1 < l.length
    · unfold runBlur
      rw [next_ideal dv l r k hk1]
      dsimp only
      rw [ih (k + 1) hk1 (by omega)]
      have e : l.length - k = (l.length - (k + 1)) + 1 := by omega
      rw [e, List.range_succ_eq_map, List.map_cons, List.map_map, Nat.add_zero]
      refine congrArg (fun t => dv (tsum l r k) (tden l r k) :: t) ?_
      refine List.map_congr_left fun j hj => ?_
      simp only [Function.comp_apply]
      have e2 : k + (j + 1) = k + 1 + j := by omega
      rw [e2]
    · have hkN : k + 1 = l.length := by omega
      obtain ⟨s2, hnext, hdone, hiter⟩ := next_ideal_last dv l r k hkN
      unfold runBlur
      rw [hnext]
      dsimp only
      rw [runBlur_done dv s2 hdone hiter m]
      have e : l.length - k = 1 := by omega
      rw [e, show List.range 1 = [0] from rfl, List.map_cons, List.map_nil, Nat.add_zero]

theorem runBlur_new (dv : T → Nat → T) (l : List T) (r : Nat) (ops0 : List T) (fuel : Nat)
    (hf : l.length ≤ fuel) :
    runBlur dv fuel (new l r ops0) =
      (List.range l.length).map fun k => dv (tsum l r k) (tden l r k) := by
  by_cases hl : l = []
  · subst hl
    cases fuel with
    | zero => rfl
    | succ m =>
      unfold runBlur
      rw [next_new_nil]
      rfl
  · have hN : 0 < l.length := List.length_pos.mpr hl
    obtain ⟨m, rfl⟩ : ∃ m, fuel = m + 1 := ⟨fuel - 1, by omega⟩
    have hstep : runBlur dv (m + 1) (new l r ops0) = runBlur dv (m + 1) (ideal l r 0) := by
      unfold runBlur
      rw [next_new_eq dv l r ops0 hl]
    rw [hstep, runBlur_ideal dv l r (m + 1) 0 hN (by omega), Nat.sub_zero]
    refine List.map_congr_left fun j hj => ?_
    rw [Nat.zero_add]

theorem stepState_ideal (dv : T → Nat → T) (l : List T) (r k : Nat) (hk1 : k + 1 < l.length) :
    stepState dv (ideal l r k) = ideal l r (k + 1) := by
  unfold stepState
  rw [next_ideal dv l r k hk1]

theorem stateBefore_eq (dv : T → Nat → T) (l : List T) (r k : Nat) (hk : k < l.length) :
    stateBefore dv l r k = ideal l r k := by
  revert hk
  induction k with
  | zero =>
    intro hk
    unfold stateBefore
    rw [Function.iterate_zero_apply]
    refine init_new_eq l r [] ?_
    intro h
    rw [h] at hk
    exact absurd hk (by simp)
  | succ n ih =>
    intro hk
    unfold stateBefore
    rw [Function.iterate_succ_apply']
    have ihn := ih (by omega)
    unfold stateBefore at ihn
    rw [ihn, stepState_ideal dv l r n hk]

theorem stateBefore_last (dv : T → Nat → T) (l : List T) (r : Nat) (hl : l ≠ []) :
    (stateBefore dv l r l.length).iter = [] ∧ (stateBefore dv l r l.length).done = true := by
  have hN : 0 < l.length := List.length_pos.mpr hl
  obtain ⟨n, hn⟩ : ∃ n, l.length = n + 1 := ⟨l.length - 1, by omega⟩
  unfold stateBefore
  rw [hn, Function.iterate_succ_apply']
  have h1 : (stepState dv)^[n] ((new l r []).init) = ideal l r n := by
    have h2 := stateBefore_eq dv l r n (by omega)
    unfold stateBefore at h2
    exact h2
  rw [h1]
  obtain ⟨s2, hnext, hdone, hiter⟩ := next_ideal_last dv l r n (by omega)
  unfold stepState
  rw [hnext]
  exact ⟨hiter, hdone⟩

end StackBlur

namespace StackBlur

variable {T : Type} [AddCommGroup T]

lemma triG_zero (m : Nat) : triG 0 m = 0 := by
  unfold triG
  refine Finset.sum_eq_zero fun d _ => ?_
  omega

lemma tden_radius_zero (l : List T) (k : Nat) (hk : k < l.length) : tden l 0 k = 1 := by
  rw [tden_closed l 0 k hk, triG_zero, triG_zero]

lemma tsum_radius_zero (l : List T) (k : Nat) (hk : k < l.length) : tsum l 0 k = elemD l k := by
  unfold tsum
  rw [Finset.sum_eq_single k]
  · have h1 : tw 0 k k = 1 := by
      unfold tw
      rw [Nat.dist_self]
    rw [h1, one_nsmul]
  · intro j _ hj
    have h0 : tw 0 k j = 0 := by
      unfold tw Nat.dist
      omega
    rw [h0, zero_smul]
  · intro hk2
    exact absurd (Finset.mem_range.mpr hk) hk2

lemma map_elemD_range (l : List T) :
    (List.range l.length).map (fun k => elemD l k) = l := by
  refine List.ext_getElem (by simp) ?_
  intro i h1 h2
  rw [List.getElem_map, List.getElem_range]
  rw [elemD, List.getD_eq_getElem _ _ h2]

theorem runBlur_radius_zero (dv : T → Nat → T) (hdv : ∀ x : T, dv x 1 = x)
    (l : List T) (ops0 : List T) (fuel : Nat) (hf : l.length ≤ fuel) :
    runBlur dv fuel (new l 0 ops0) = l := by
  rw [runBlur_new dv l 0 ops0 fuel hf]
  have hcg : ∀ k ∈ List.range l.length,
      dv (tsum l 0 k) (tden l 0 k) = elemD l k := by
    intro k hk
    rw [List.mem_range] at hk
    rw [tden_radius_zero l k hk, tsum_radius_zero l k hk, hdv]
  rw [List.map_congr_left hcg, map_elemD_range]

lemma elemD_replicate (n : Nat) (v : T) (j : Nat) (hj : j < n) :
    elemD (List.replicate n v) j = v := by
  rw [elemD, List.getD_eq_getElem _ _ (by simpa using hj), List.getElem_replicate]

lemma tsum_tden_replicate (n : Nat) (v : T) (r k : Nat) :
    tsum (List.replicate n v) r k = tden (List.replicate n v) r k • v := by
  unfold tsum tden
  rw [Finset.sum_smul]
  refine Finset.sum_congr rfl fun j hj => ?_
  rw [Finset.mem_range, List.length_replicate] at hj
  rw [elemD_replicate n v j hj]

theorem runBlur_const (dv : T → Nat → T) (v : T)
    (hdv : ∀ m : Nat, 0 < m → dv (m • v) m = v) (n r : Nat) (ops0 : List T) (fuel : Nat)
    (hf : n ≤ fuel) :
    runBlur dv fuel (new (List.replicate n v) r ops0) = List.replicate n v := by
  rw [runBlur_new dv (List.replicate n v) r ops0 fuel (by simpa using hf)]
  have hcg : ∀ k ∈ List.range (List.replicate n v).length,
      dv (tsum (List.replicate n v) r k) (tden (List.replicate n v) r k) = v := by
    intro k hk
    rw [List.mem_range] at hk
    rw [tsum_tden_replicate n v r k]
    exact hdv _ (tden_pos _ r k hk)
  rw [List.map_congr_left hcg]
  rw [List.length_replicate, List.map_const', List.length_range]

end StackBlur

lemma tdiv_eq_ediv_of_nonneg (a : Int) (n : Nat) (ha : 0 ≤ a) :
    Int.tdiv a (n : Int) = a / (n : Int) := by
  obtain ⟨m, rfl⟩ := Int.eq_ofNat_of_zero_le ha
  rfl

lemma intDiv_one (x : Int) : intDiv x 1 = x := by
  unfold intDiv
  rw [Nat.cast_one, Int.tdiv_one]

lemma intDiv_smul_cancel (m : Nat) (v : Int) (hm : 0 < m) : intDiv (m • v) m = v := by
  unfold intDiv
  have hm2 : ((m : Int)) ≠ 0 := by
    intro h
    omega
  rw [nsmul_eq_mul, Int.mul_tdiv_cancel_left v hm2]

lemma argbDiv_one (x : ARGB) : argbDiv x 1 = x := by
  funext i
  unfold argbDiv
  rw [Nat.cast_one, Int.tdiv_one]

lemma argbDiv_smul_cancel (m : Nat) (v : ARGB) (hm : 0 < m) : argbDiv (m • v) m = v := by
  funext i
  unfold argbDiv
  have hm2 : ((m : Int)) ≠ 0 := by
    intro h
    omega
  rw [Pi.smul_apply, nsmul_eq_mul, Int.mul_tdiv_cancel_left (v i) hm2]

lemma from_argb_nonneg (p : Nat) (i : Fin 4) : 0 ≤ from_argb p i := by
  unfold from_argb
  exact Int.natCast_nonneg _

lemma from_argb_lt (p : Nat) (i : Fin 4) : from_argb p i < 256 := by
  unfold from_argb
  have h : p / 2 ^ (8 * (3 - i.val)) % 256 < 256 := Nat.mod_lt _ (by omega)
  exact_mod_cast h

lemma laneByte_of_bounds (x : Int) (h0 : 0 ≤ x) (h1 : x < 256) : (laneByte x : Int) = x := by
  unfold laneByte
  rw [Int.emod_eq_of_lt h0 h1, Int.toNat_of_nonneg h0]

lemma laneByte_lt (x : Int) : laneByte x < 256 := by
  unfold laneByte
  have h2 : x % 256 < 256 := Int.emod_lt_of_pos _ (by omega)
  omega

lemma laneByte_from (p : Nat) (i : Fin 4) :
    laneByte (from_argb p i) = p / 2 ^ (8 * (3 - i.val)) % 256 := by
  unfold laneByte from_argb
  rw [Int.emod_eq_of_lt (Int.natCast_nonneg _)
    (by exact_mod_cast Nat.mod_lt (p / 2 ^ (8 * (3 - i.val))) (show 0 < 256 by omega))]
  exact Int.toNat_natCast _

lemma to_from_argb (p : Nat) (hp : p < 2 ^ 32) : to_argb (from_argb p) = p := by
  unfold to_argb
  rw [laneByte_from p 0, laneByte_from p 1, laneByte_from p 2, laneByte_from p 3]
  have e0 : ((0 : Fin 4)).val = 0 := rfl
  have e1 : ((1 : Fin 4)).val = 1 := rfl
  have e2 : ((2 : Fin 4)).val = 2 := rfl
  have e3 : ((3 : Fin 4)).val = 3 := rfl
  rw [e0, e1, e2, e3]
  norm_num
  omega

lemma from_to_argb (v : ARGB) (hb : ∀ i : Fin 4, 0 ≤ v i ∧ v i < 256) :
    from_argb (to_argb v) = v := by
  have h0 := hb 0
  have h1 := hb 1
  have h2 := hb 2
  have h3 := hb 3
  funext i
  unfold from_argb to_argb
  fin_cases i <;> norm_num <;>
    rw [laneByte_of_bounds (v 0) (hb 0).1 (hb 0).2, laneByte_of_bounds (v 1) (hb 1).1 (hb 1).2,
      laneByte_of_bounds (v 2) (hb 2).1 (hb 2).2, laneByte_of_bounds (v 3) (hb 3).1 (hb 3).2]
  · omega
  · omega
  · rw [show v ⟨2, by norm_num⟩ = v 2 from rfl]
    omega
  · rw [show v ⟨3, by norm_num⟩ = v 3 from rfl]
    omega

lemma blurLine_eq (r : Nat) (row : List Nat) :
    blurLine r row = (List.range row.length).map fun k =>
      to_argb (argbDiv (StackBlur.tsum (row.map from_argb) r k)
        (StackBlur.tden (row.map from_argb) r k)) := by
  unfold blurLine
  rw [StackBlur.runBlur_new argbDiv (row.map from_argb) r [] (row.length + 1) (by simp)]
  rw [List.length_map, List.map_map]
  rfl

lemma blurLine_length (r : Nat) (row : List Nat) : (blurLine r row).length = row.length := by
  rw [blurLine_eq]
  simp

lemma blurLine_zero (row : List Nat) (hrow : ∀ p ∈ row, p < 2 ^ 32) : blurLine 0 row = row := by
  unfold blurLine
  rw [StackBlur.runBlur_radius_zero argbDiv argbDiv_one (row.map from_argb) [] _ (by simp)]
  rw [List.map_map]
  have hcg : ∀ p ∈ row, (to_argb ∘ from_argb) p = id p := by
    intro p hp
    simp only [Function.comp_apply, id]
    exact to_from_argb p (hrow p hp)
  rw [List.map_congr_left hcg, List.map_id]

lemma blurLine_const (m p r : Nat) (hp : p < 2 ^ 32) :
    blurLine r (List.replicate m p) = List.replicate m p := by
  unfold blurLine
  rw [List.map_replicate, List.length_replicate]
  rw [StackBlur.runBlur_const argbDiv (from_argb p)
    (fun n hn => argbDiv_smul_cancel n _ hn) m r [] (m + 1) (by omega)]
  rw [List.map_replicate, to_from_argb p hp]

lemma chunksExact_cons (w : Nat) (l : List Nat) (hw : 0 < w) (hwl : w ≤ l.length) :
    chunksExact w l = l.take w :: chunksExact w (l.drop w) := by
  conv_lhs => unfold chunksExact
  rw [dif_pos ⟨hw, hwl⟩]

lemma chunksExact_stop (w : Nat) (l : List Nat) (h : ¬(0 < w ∧ w ≤ l.length)) :
    chunksExact w l = [] := by
  conv_lhs => unfold chunksExact
  rw [dif_neg h]

lemma chunksExact_subset (w : Nat) :
    ∀ n (l : List Nat), l.length ≤ n → ∀ c ∈ chunksExact w l, ∀ x ∈ c, x ∈ l := by
  intro n
  induction n with
  | zero =>
    intro l hl c hc x hx
    have hnil : l = [] := List.eq_nil_of_length_eq_zero (by omega)
    subst hnil
    rw [chunksExact_stop w [] (by omega)] at hc
    exact absurd hc (by simp)
  | succ m ih =>
    intro l hl c hc x hx
    by_cases hcond : 0 < w ∧ w ≤ l.length
    · rw [chunksExact_cons w l hcond.1 hcond.2] at hc
      rcases List.mem_cons.mp hc with hc1 | hc2
      · subst hc1
        exact List.take_subset w l hx
      · have hxl := ih (l.drop w) (by rw [List.length_drop]; omega) c hc2 x hx
        exact List.drop_subset w l hxl
    · rw [chunksExact_stop w l hcond] at hc
      exact absurd hc (by simp)

lemma chunksExact_join (w : Nat) (F : List Nat → List Nat) (hw : 0 < w) :
    ∀ n (l : List Nat), l.length ≤ n → (∀ c ∈ chunksExact w l, F c = c) →
      (chunksExact w l).flatMap F ++ l.drop (l.length / w * w) = l := by
  intro n
  induction n with
  | zero =>
    intro l hl hF
    have hnil : l = [] := List.eq_nil_of_length_eq_zero (by omega)
    subst hnil
    rw [chunksExact_stop w [] (by omega)]
    simp
  | succ m ih =>
    intro l hl hF
    by_cases hwl : w ≤ l.length
    · have hch := chunksExact_cons w l hw hwl
      rw [hch, List.flatMap_cons]
      rw [hF (l.take w) (by rw [hch]; simp)]
      have hql : l.length / w * w = (l.length - w) / w * w + w := by
        rw [Nat.div_eq_sub_div hw hwl, Nat.succ_mul]
      have hdd : l.drop (l.length / w * w) = (l.drop w).drop ((l.drop w).length / w * w) := by
        rw [List.drop_drop, List.length_drop]
        rw [hql, Nat.add_comm ((l.length - w) / w * w) w]
      rw [List.append_assoc, hdd]
      rw [ih (l.drop w) (by rw [List.length_drop]; omega)
        (fun c hc => hF c (by rw [hch]; exact List.mem_cons_of_mem _ hc))]
      exact List.take_append_drop w l
    · rw [chunksExact_stop w l (by omega)]
      rw [Nat.div_eq_of_lt (by omega), Nat.zero_mul, List.drop_zero]
      rfl

lemma foldl_keep {α β : Type} (g : α → β → α) (a : α) :
    ∀ xs : List β, (∀ x ∈ xs, g a x = a) → xs.foldl g a = a := by
  intro xs
  induction xs with
  | nil => intro _; rfl
  | cons x xs ih =>
    intro h
    rw [List.foldl_cons, h x (by simp)]
    exact ih fun y hy => h y (by simp [hy])

lemma set_getD_self {α : Type} (l : List α) (i : Nat) (d : α) :
    l.set i (l.getD i d) = l := by
  refine List.ext_getElem (by simp) ?_
  intro j h1 h2
  rw [List.getElem_set]
  by_cases hij : i = j
  · subst hij
    rw [if_pos rfl, List.getD_eq_getElem _ _ h2]
  · rw [if_neg hij]

lemma idx_lt {w h col i : Nat} (hcol : col < w) (hi : i < h) : col + i * w < w * h := by
  have h1 : i * w ≤ (h - 1) * w := Nat.mul_le_mul_right w (by omega)
  have h2 : (h - 1) * w + w = h * w := by
    rw [← Nat.succ_mul]
    congr 1
    omega
  have h3 : h * w = w * h := Nat.mul_comm h w
  omega

lemma getColumn_length (buf : List Nat) (w h col : Nat) :
    (getColumn buf w h col).length = h := by
  unfold getColumn
  rw [List.length_map, List.length_range]

lemma getColumn_getD (buf : List Nat) (w h col i : Nat) (hi : i < h) :
    (getColumn buf w h col).getD i 0 = buf.getD (col + i * w) 0 := by
  unfold getColumn
  rw [List.getD_eq_getElem _ _ (by rw [List.length_map, List.length_range]; exact hi)]
  rw [List.getElem_map, List.getElem_range]

lemma getColumn_subset (buf : List Nat) (w h col : Nat) :
    ∀ x ∈ getColumn buf w h col, x ∈ buf ∨ x = 0 := by
  intro x hx
  unfold getColumn at hx
  rw [List.mem_map] at hx
  obtain ⟨i, _, rfl⟩ := hx
  by_cases hidx : col + i * w < buf.length
  · left
    rw [List.getD_eq_getElem _ _ hidx]
    exact List.getElem_mem _
  · right
    rw [List.getD_eq_default _ _ (by omega)]

lemma writeColumn_self (buf : List Nat) (w col : Nat) (vals : List Nat)
    (hv : ∀ i ∈ List.range vals.length, vals.getD i 0 = buf.getD (col + i * w) 0) :
    writeColumn buf w col vals = buf := by
  unfold writeColumn
  refine foldl_keep _ buf _ ?_
  intro i hi
  rw [hv i hi]
  exact set_getD_self buf (col + i * w) 0

lemma getColumn_replicate (w h p col : Nat) (hcol : col < w) :
    getColumn (List.replicate (w * h) p) w h col = List.replicate h p := by
  unfold getColumn
  have hcg : ∀ i ∈ List.range h,
      (List.replicate (w * h) p).getD (col + i * w) 0 = (fun _ => p) i := by
    intro i hi
    rw [List.mem_range] at hi
    rw [List.getD_eq_getElem _ _ (by rw [List.length_replicate]; exact idx_lt hcol hi),
      List.getElem_replicate]
  rw [List.map_congr_left hcg, List.map_const', List.length_range]

theorem blur_horiz_ok_zero (a : List Nat) (w h : Nat) (hlen : a.length = w * h) (hw : w ≠ 0)
    (ha : ∀ p ∈ a, p < 2 ^ 32) : blur_horiz a w h 0 = Except.ok a := by
  unfold blur_horiz
  rw [if_neg (by omega), if_neg hw]
  congr 1
  refine chunksExact_join w (blurLine 0) (by omega) a.length a (le_refl _) ?_
  intro c hc
  exact blurLine_zero c fun x hx =>
    ha x (chunksExact_subset w a.length a (le_refl _) c hc x hx)

theorem blur_vert_ok_zero (a : List Nat) (w h : Nat) (hlen : a.length = w * h)
    (ha : ∀ p ∈ a, p < 2 ^ 32) : blur_vert a w h 0 = Except.ok a := by
  unfold blur_vert
  rw [if_neg (by omega)]
  congr 1
  refine foldl_keep _ a _ ?_
  intro col _
  have hcol : blurLine 0 (getColumn a w h col) = getColumn a w h col := by
    refine blurLine_zero _ fun x hx => ?_
    rcases getColumn_subset a w h col x hx with hx2 | hx2
    · exact ha x hx2
    · rw [hx2]
      norm_num
  rw [hcol]
  refine writeColumn_self a w col _ ?_
  intro i hi
  rw [List.mem_range, getColumn_length] at hi
  exact getColumn_getD a w h col i hi

theorem blur_horiz_ok_const (w h p r : Nat) (hp : p < 2 ^ 32) (hw : w ≠ 0) :
    blur_horiz (List.replicate (w * h) p) w h r = Except.ok (List.replicate (w * h) p) := by
  unfold blur_horiz
  rw [if_neg (by rw [List.length_replicate]; omega), if_neg hw]
  congr 1
  refine chunksExact_join w (blurLine r) (by omega) (List.replicate (w * h) p).length _
    (le_refl _) ?_
  intro c hc
  have hcp : ∀ x ∈ c, x = p := fun x hx =>
    List.eq_of_mem_replicate
      (chunksExact_subset w (List.replicate (w * h) p).length _ (le_refl _) c hc x hx)
  have hcr : c = List.replicate c.length p := List.eq_replicate_of_mem hcp
  rw [hcr, blurLine_const c.length p r hp]

theorem blur_vert_ok_const (w h p r : Nat) (hp : p < 2 ^ 32) :
    blur_vert (List.replicate (w * h) p) w h r = Except.ok (List.replicate (w * h) p) := by
  unfold blur_vert
  rw [if_neg (by rw [List.length_replicate]; omega)]
  congr 1
  refine foldl_keep _ _ _ ?_
  intro col hcol
  rw [List.mem_range] at hcol
  rw [getColumn_replicate w h p col hcol, blurLine_const h p r hp]
  refine writeColumn_self _ w col _ ?_
  intro i hi
  rw [List.mem_range, List.length_replicate] at hi
  rw [List.getD_eq_getElem _ _ (by rw [List.length_replicate]; exact hi), List.getElem_replicate]
  rw [List.getD_eq_getElem _ _ (by rw [List.length_replicate]; exact idx_lt hcol hi),
    List.getElem_replicate]


lemma foldr_min_le_mem (l : List Int) (a x : Int) (hx : x ∈ l) : l.foldr min a ≤ x := by
  induction l with
  | nil => exact absurd hx (by simp)
  | cons y ys ih =>
    rw [List.foldr_cons]
    rcases List.mem_cons.mp hx with h | h
    · rw [h]
      exact min_le_left _ _
    · exact le_trans (min_le_right _ _) (ih h)

lemma le_foldr_min (l : List Int) (a b : Int) (hb : ∀ x ∈ l, b ≤ x) (hba : b ≤ a) :
    b ≤ l.foldr min a := by
  induction l with
  | nil => exact hba
  | cons y ys ih =>
    rw [List.foldr_cons]
    exact le_min (hb y (by simp)) (ih fun x hx => hb x (by simp [hx]))

lemma foldr_max_ge_mem (l : List Int) (a x : Int) (hx : x ∈ l) : x ≤ l.foldr max a := by
  induction l with
  | nil => exact absurd hx (by simp)
  | cons y ys ih =>
    rw [List.foldr_cons]
    rcases List.mem_cons.mp hx with h | h
    · rw [h]
      exact le_max_left _ _
    · exact le_trans (ih h) (le_max_right _ _)

lemma foldr_max_le (l : List Int) (a b : Int) (hb : ∀ x ∈ l, x ≤ b) (hba : a ≤ b) :
    l.foldr max a ≤ b := by
  induction l with
  | nil => exact hba
  | cons y ys ih =>
    rw [List.foldr_cons]
    exact max_le (hb y (by simp)) (ih fun x hx => hb x (by simp [hx]))

lemma mem_allLanes (ps : List Nat) (j : Nat) (hj : j < ps.length) (i : Fin 4) :
    from_argb (ps.getD j 0) i ∈ allLanes ps := by
  unfold allLanes
  rw [List.mem_flatMap]
  refine ⟨ps.getD j 0, ?_, ?_⟩
  · rw [List.getD_eq_getElem _ _ hj]
    exact List.getElem_mem _
  · unfold pixelLanes
    rw [List.mem_ofFn]
    exact ⟨i, rfl⟩

lemma allLanes_nonneg (ps : List Nat) : ∀ x ∈ allLanes ps, 0 ≤ x := by
  intro x hx
  unfold allLanes at hx
  rw [List.mem_flatMap] at hx
  obtain ⟨p, _, hx2⟩ := hx
  unfold pixelLanes at hx2
  rw [List.mem_ofFn] at hx2
  obtain ⟨i, rfl⟩ := hx2
  exact from_argb_nonneg p i

lemma allLanes_lt (ps : List Nat) : ∀ x ∈ allLanes ps, x < 256 := by
  intro x hx
  unfold allLanes at hx
  rw [List.mem_flatMap] at hx
  obtain ⟨p, _, hx2⟩ := hx
  unfold pixelLanes at hx2
  rw [List.mem_ofFn] at hx2
  obtain ⟨i, rfl⟩ := hx2
  exact from_argb_lt p i

lemma laneMin_nonneg (ps : List Nat) : 0 ≤ laneMin ps :=
  le_foldr_min _ 255 0 (allLanes_nonneg ps) (by norm_num)

lemma laneMax_le_255 (ps : List Nat) : laneMax ps ≤ 255 :=
  foldr_max_le _ 0 255 (fun x hx => by have := allLanes_lt ps x hx; omega) (by norm_num)

lemma laneMin_le (ps : List Nat) (j : Nat) (hj : j < ps.length) (i : Fin 4) :
    laneMin ps ≤ from_argb (ps.getD j 0) i :=
  foldr_min_le_mem _ 255 _ (mem_allLanes ps j hj i)

lemma laneMax_ge (ps : List Nat) (j : Nat) (hj : j < ps.length) (i : Fin 4) :
    from_argb (ps.getD j 0) i ≤ laneMax ps :=
  foldr_max_ge_mem _ 0 _ (mem_allLanes ps j hj i)

lemma tdiv_bounds (S : Int) (D : Nat) (lo hi : Int) (hD : 0 < D) (hlo : 0 ≤ lo)
    (h1 : lo * D ≤ S) (h2 : S ≤ hi * D) : lo ≤ Int.tdiv S D ∧ Int.tdiv S D ≤ hi := by
  have hDz : (0 : Int) < (D : Int) := by exact_mod_cast hD
  have hS : 0 ≤ S := le_trans (mul_nonneg hlo (by positivity)) h1
  rw [tdiv_eq_ediv_of_nonneg S D hS]
  constructor
  · exact (Int.le_ediv_iff_mul_le hDz).mpr h1
  · calc S / (D : Int) ≤ (hi * D) / D := Int.ediv_le_ediv hDz h2
      _ = hi := Int.mul_ediv_cancel _ (by omega)

lemma elemD_map (ps : List Nat) (j : Nat) (hj : j < ps.length) :
    StackBlur.elemD (ps.map from_argb) j = from_argb (ps.getD j 0) := by
  unfold StackBlur.elemD
  rw [List.getD_eq_getElem _ _ (by simpa using hj), List.getElem_map,
    List.getD_eq_getElem _ _ hj]

lemma tsum_lane (ps : List Nat) (r k : Nat) (i : Fin 4) :
    StackBlur.tsum (ps.map from_argb) r k i =
      ∑ j ∈ Finset.range ps.length,
        ((StackBlur.tw r k j : Nat) : Int) * from_argb (ps.getD j 0) i := by
  unfold StackBlur.tsum
  rw [Finset.sum_apply]
  simp only [List.length_map]
  refine Finset.sum_congr rfl fun j hj => ?_
  rw [Finset.mem_range] at hj
  have e1 : (StackBlur.tw r k j • StackBlur.elemD (ps.map from_argb) j) i =
      StackBlur.tw r k j • (StackBlur.elemD (ps.map from_argb) j i) := rfl
  rw [e1, elemD_map ps j hj, nsmul_eq_mul]

lemma tden_cast (ps : List Nat) (r k : Nat) :
    ((StackBlur.tden (ps.map from_argb) r k : Nat) : Int) =
      ∑ j ∈ Finset.range ps.length, ((StackBlur.tw r k j : Nat) : Int) := by
  unfold StackBlur.tden
  rw [Nat.cast_sum]
  simp only [List.length_map]

theorem argb_lane_bounds (ps : List Nat) (r k : Nat) (hk : k < ps.length) (i : Fin 4) :
    laneMin ps ≤ argbDiv (StackBlur.tsum (ps.map from_argb) r k)
        (StackBlur.tden (ps.map from_argb) r k) i ∧
      argbDiv (StackBlur.tsum (ps.map from_argb) r k)
        (StackBlur.tden (ps.map from_argb) r k) i ≤ laneMax ps := by
  have hD := StackBlur.tden_pos (ps.map from_argb) r k (by simpa using hk)
  unfold argbDiv
  rw [tsum_lane ps r k i]
  refine tdiv_bounds _ _ _ _ hD (laneMin_nonneg ps) ?_ ?_
  · rw [tden_cast ps r k, Finset.mul_sum]
    refine Finset.sum_le_sum fun j hj => ?_
    rw [Finset.mem_range] at hj
    rw [mul_comm]
    exact mul_le_mul_of_nonneg_left (laneMin_le ps j hj i) (Int.natCast_nonneg _)
  · rw [tden_cast ps r k, Finset.mul_sum]
    refine Finset.sum_le_sum fun j hj => ?_
    rw [Finset.mem_range] at hj
    rw [mul_comm ((StackBlur.tw r k j : Nat) : Int) (from_argb (ps.getD j 0) i)]
    exact mul_le_mul_of_nonneg_right (laneMax_ge ps j hj i) (Int.natCast_nonneg _)

lemma argbOutputs_getD (ps : List Nat) (r k : Nat) (hk : k < ps.length) :
    (argbOutputs ps r).getD k 0 = argbDiv (StackBlur.tsum (ps.map from_argb) r k)
      (StackBlur.tden (ps.map from_argb) r k) := by
  unfold argbOutputs
  rw [StackBlur.runBlur_new argbDiv (ps.map from_argb) r [] (ps.length + 1) (by simp)]
  rw [List.length_map]
  rw [List.getD_eq_getElem _ _ (by simpa using hk)]
  rw [List.getElem_map, List.getElem_range]

/-- C1: for every input sequence of `N` values and every radius, running the
filter to exhaustion (any fuel ≥ N) yields exactly `N` outputs, one per input
index in order, and the `k`-th output is `dv`-division (the value type's own
division) of the triangular-weighted sum of the in-range inputs by the sum of
the weights actually included (out-of-range offsets dropped, no padding). -/
theorem C1_stackblur_triangular {T : Type} [AddCommGroup T] (dv : T → Nat → T)
    (l : List T) (r : Nat) (ops0 : List T) (fuel : Nat) (hfuel : l.length ≤ fuel) :
    (StackBlur.runBlur dv fuel (StackBlur.new l r ops0)).length = l.length ∧
    StackBlur.runBlur dv fuel (StackBlur.new l r ops0) =
      (List.range l.length).map fun k => dv (StackBlur.tsum l r k) (StackBlur.tden l r k) := by
  have h := StackBlur.runBlur_new dv l r ops0 fuel hfuel
  refine ⟨?_, h⟩
  rw [h]
  simp

/-- Witness for C1 at a concrete input. -/
theorem C1_stackblur_triangular_witness :
    ([10, 20, 30] : List Int).length ≤ 3 ∧
    ((StackBlur.runBlur intDiv 3 (StackBlur.new ([10, 20, 30] : List Int) 1 [])).length =
        ([10, 20, 30] : List Int).length ∧
      StackBlur.runBlur intDiv 3 (StackBlur.new ([10, 20, 30] : List Int) 1 []) =
        (List.range ([10, 20, 30] : List Int).length).map fun k =>
          intDiv (StackBlur.tsum [10, 20, 30] 1 k) (StackBlur.tden [10, 20, 30] 1 k)) :=
  ⟨by decide, C1_stackblur_triangular intDiv [10, 20, 30] 1 [] 3 (by decide)⟩

/-- C2 counterexample: on input `[10, 20, 30, 20, 10]` with radius 1 the
filter's output at index 2 is not 22 (the claimed conjunction is false):
the triangular average there is `(1·20 + 2·30 + 1·20) / 4 = 100 / 4 = 25`. -/
theorem C2_counterexample :
    ¬ ((stackblurInt [10, 20, 30, 20, 10] 1).getD 2 0 = 22 ∧
       (stackblurInt [10, 20, 30, 20, 10] 1).getD 0 0 = 13) := by decide

/-- C2 amended: on input `[10, 20, 30, 20, 10]` with radius 1 the output at
index 2 is 25 (= (1·20 + 2·30 + 1·20) / 4 with truncating division) and the
output at index 0 is 13 (= (2·10 + 1·20) / 3 truncated). -/
theorem C2_amended :
    (stackblurInt [10, 20, 30, 20, 10] 1).getD 2 0 = 25 ∧
    (stackblurInt [10, 20, 30, 20, 10] 1).getD 0 0 = 13 := by decide

/-- C3: filtering with radius 0 returns the sequence unchanged, and `blur`,
`blur_horizontal` and `blur_vertical` with radius 0 leave every element of
the (u32) pixel buffer unchanged, whether they return normally or panic
(`resultBuf` is the buffer contents either way). -/
theorem C3_radius_zero_noop :
    (∀ l : List Int, stackblurInt l 0 = l) ∧
    (∀ (a : List Nat) (w h : Nat), (∀ p ∈ a, p < 2 ^ 32) →
      resultBuf (blur_horiz a w h 0) = a ∧ resultBuf (blur_vert a w h 0) = a ∧
        resultBuf (blur a w h 0) = a) := by
  constructor
  · intro l
    unfold stackblurInt
    exact StackBlur.runBlur_radius_zero intDiv intDiv_one l [] (l.length + 1) (by omega)
  · intro a w h ha
    by_cases h1 : a.length = w * h
    · by_cases h2 : w = 0
      · have hh : blur_horiz a w h 0 = Except.error a := by
          unfold blur_horiz
          rw [if_neg (by omega), if_pos h2]
        have hv : blur_vert a w h 0 = Except.ok a := blur_vert_ok_zero a w h h1 ha
        have hb : blur a w h 0 = Except.error a := by
          unfold blur
          rw [hh]
        exact ⟨by rw [hh]; rfl, by rw [hv]; rfl, by rw [hb]; rfl⟩
      · have hh := blur_horiz_ok_zero a w h h1 h2 ha
        have hv := blur_vert_ok_zero a w h h1 ha
        have hb : blur a w h 0 = Except.ok a := by
          unfold blur
          rw [hh]
          exact hv
        exact ⟨by rw [hh]; rfl, by rw [hv]; rfl, by rw [hb]; rfl⟩
    · have hh : blur_horiz a w h 0 = Except.error a := by
        unfold blur_horiz
        rw [if_pos (by omega)]
      have hv : blur_vert a w h 0 = Except.error a := by
        unfold blur_vert
        rw [if_pos (by omega)]
      have hb : blur a w h 0 = Except.error a := by
        unfold blur
        rw [hh]
      exact ⟨by rw [hh]; rfl, by rw [hv]; rfl, by rw [hb]; rfl⟩

/-- Witness for C3 at a concrete buffer. -/
theorem C3_radius_zero_noop_witness :
    (∀ p ∈ ([5, 6] : List Nat), p < 2 ^ 32) ∧
    (resultBuf (blur_horiz [5, 6] 2 1 0) = [5, 6] ∧ resultBuf (blur_vert [5, 6] 2 1 0) = [5, 6] ∧
      resultBuf (blur [5, 6] 2 1 0) = [5, 6]) :=
  ⟨by decide, C3_radius_zero_noop.2 [5, 6] 2 1 (by decide)⟩

/-- C4: the code panics where the claim requires success.  With `width = 0`
(and matching buffer length `0 = width·height`), `blur_horizontal` and `blur`
reach `slice::chunks_exact_mut(0)`, whose `chunk size must be non-zero`
assertion panics (modelled as `Except.error` carrying the untouched buffer);
`blur_vertical` alone completes.  The claim says all three complete without
failure, so the code contradicts the spec here. -/
theorem C4_width_zero_panics :
    blur_horiz ([] : List Nat) 0 5 3 = Except.error [] ∧
    blur ([] : List Nat) 0 5 3 = Except.error [] ∧
    blur_vert ([] : List Nat) 0 5 3 = Except.ok [] := ⟨rfl, rfl, rfl⟩

/-- C5: on a buffer-length mismatch, `blur_horizontal` and `blur_vertical`
fail on the (first-statement) `debug_assert_eq` with the buffer untouched:
the panic value carries exactly the original buffer. -/
theorem C5_mismatch_fail_fast (a : List Nat) (w h r : Nat) (hmm : a.length ≠ w * h) :
    blur_horiz a w h r = Except.error a ∧ blur_vert a w h r = Except.error a := by
  constructor
  · unfold blur_horiz
    rw [if_pos hmm]
  · unfold blur_vert
    rw [if_pos hmm]

/-- Witness for C5 at a concrete mismatched buffer. -/
theorem C5_mismatch_fail_fast_witness :
    ([1, 2, 3] : List Nat).length ≠ 2 * 2 ∧
    (blur_horiz [1, 2, 3] 2 2 1 = Except.error [1, 2, 3] ∧
      blur_vert [1, 2, 3] 2 2 1 = Except.error [1, 2, 3]) :=
  ⟨by decide, C5_mismatch_fail_fast [1, 2, 3] 2 2 1 (by decide)⟩

/-- C6: filtering a constant sequence returns it unchanged for every radius,
and `blur` on a buffer of all-equal pixels leaves the buffer unchanged
(returning normally whenever `width > 0`). -/
theorem C6_constant_unchanged :
    (∀ (n : Nat) (v : Int) (r : Nat), stackblurInt (List.replicate n v) r = List.replicate n v) ∧
    (∀ (w h p r : Nat), p < 2 ^ 32 →
      resultBuf (blur (List.replicate (w * h) p) w h r) = List.replicate (w * h) p ∧
      (0 < w → blur (List.replicate (w * h) p) w h r = Except.ok (List.replicate (w * h) p))) := by
  constructor
  · intro n v r
    unfold stackblurInt
    rw [List.length_replicate]
    exact StackBlur.runBlur_const intDiv v (fun m hm => intDiv_smul_cancel m v hm) n r []
      (n + 1) (by omega)
  · intro w h p r hp
    by_cases hw : w = 0
    · subst hw
      have hh : blur_horiz (List.replicate (0 * h) p) 0 h r =
          Except.error (List.replicate (0 * h) p) := by
        unfold blur_horiz
        rw [if_neg (by simp), if_pos rfl]
      have hb : blur (List.replicate (0 * h) p) 0 h r =
          Except.error (List.replicate (0 * h) p) := by
        unfold blur
        rw [hh]
      exact ⟨by rw [hb]; rfl, fun hw2 => absurd hw2 (by omega)⟩
    · have hh := blur_horiz_ok_const w h p r hp hw
      have hv := blur_vert_ok_const w h p r hp
      have hb : blur (List.replicate (w * h) p) w h r =
          Except.ok (List.replicate (w * h) p) := by
        unfold blur
        rw [hh]
        exact hv
      exact ⟨by rw [hb]; rfl, fun _ => hb⟩

/-- Witness for C6 at a concrete constant buffer. -/
theorem C6_constant_unchanged_witness :
    (7 : Nat) < 2 ^ 32 ∧
    (resultBuf (blur (List.replicate (2 * 1) 7) 2 1 3) = List.replicate (2 * 1) 7 ∧
      (0 < 2 → blur (List.replicate (2 * 1) 7) 2 1 3 = Except.ok (List.replicate (2 * 1) 7))) :=
  ⟨by decide, C6_constant_unchanged.2 2 1 7 3 (by decide)⟩

/-- C7 counterexample: on input `[10, 20]` with radius 1 the fill phase
consumes 2 items (more than one), yet after the call yielding output index 1
the number of consumed items is exactly `1 + 1`, not strictly greater, so the
claimed strict inequality fails at the last output. -/
theorem C7_counterexample :
    1 < 2 - ((StackBlur.new ([10, 20] : List Int) 1 []).init).iter.length ∧
    ¬ (1 + 1 < 2 -
        (StackBlur.stateBefore intDiv ([10, 20] : List Int) 1 (1 + 1)).iter.length) := by
  decide

/-- C7 amended: after the call to `next` that yields output index `i`, the
number of input items consumed (input length minus items still pending in the
iterator) is at least `i + 1`, and strictly greater than `i + 1` whenever
another output remains (`i + 1 < N`); hence writing output `i` into the slot
of input `i` never overwrites an input that has not yet been read. -/
theorem C7_amended {T : Type} [AddCommGroup T] (dv : T → Nat → T) (l : List T) (r i : Nat)
    (hi : i < l.length) :
    i + 1 ≤ l.length - (StackBlur.stateBefore dv l r (i + 1)).iter.length ∧
    (i + 1 < l.length →
      i + 1 < l.length - (StackBlur.stateBefore dv l r (i + 1)).iter.length) := by
  by_cases hlast : i + 1 < l.length
  · rw [StackBlur.stateBefore_eq dv l r (i + 1) hlast]
    simp only [StackBlur.ideal, List.length_drop]
    omega
  · have hl : l ≠ [] := by
      intro h
      rw [h] at hi
      exact absurd hi (by simp)
    have hi1 : i + 1 = l.length := by omega
    rw [hi1, (StackBlur.stateBefore_last dv l r hl).1]
    simp only [List.length_nil]
    omega

/-- Witness for the amended C7 at a concrete input. -/
theorem C7_amended_witness :
    (0 : Nat) < ([10, 20, 30] : List Int).length ∧
    (0 + 1 ≤ ([10, 20, 30] : List Int).length -
        (StackBlur.stateBefore intDiv ([10, 20, 30] : List Int) 1 (0 + 1)).iter.length ∧
      (0 + 1 < ([10, 20, 30] : List Int).length →
        0 + 1 < ([10, 20, 30] : List Int).length -
          (StackBlur.stateBefore intDiv ([10, 20, 30] : List Int) 1 (0 + 1)).iter.length)) :=
  ⟨by decide, C7_amended intDiv [10, 20, 30] 1 0 (by decide)⟩

/-- C8: at the call to `next` that yields output index `k`, the divisor
`dnom` is strictly positive, never exceeds `(radius + 1)^2`, and equals
`(radius + 1)^2` whenever the full triangular window lies inside the
sequence. -/
theorem C8_dnom_bounds {T : Type} [AddCommGroup T] (dv : T → Nat → T) (l : List T) (r k : Nat)
    (hk : k < l.length) :
    0 < (StackBlur.stateBefore dv l r k).dnom ∧
    (StackBlur.stateBefore dv l r k).dnom ≤ (r + 1) ^ 2 ∧
    (r ≤ k → k + r + 1 ≤ l.length → (StackBlur.stateBefore dv l r k).dnom = (r + 1) ^ 2) := by
  rw [StackBlur.stateBefore_eq dv l r k hk]
  simp only [StackBlur.ideal]
  exact ⟨StackBlur.tden_pos l r k hk, StackBlur.tden_le l r k hk,
    fun h1 h2 => StackBlur.tden_full l r k h1 h2⟩

/-- Witness for C8 at a concrete input with a full interior window. -/
theorem C8_dnom_bounds_witness :
    (1 : Nat) < ([10, 20, 30] : List Int).length ∧
    (0 < (StackBlur.stateBefore intDiv ([10, 20, 30] : List Int) 1 1).dnom ∧
      (StackBlur.stateBefore intDiv ([10, 20, 30] : List Int) 1 1).dnom ≤ (1 + 1) ^ 2 ∧
      (1 ≤ 1 → 1 + 1 + 1 ≤ ([10, 20, 30] : List Int).length →
        (StackBlur.stateBefore intDiv ([10, 20, 30] : List Int) 1 1).dnom = (1 + 1) ^ 2)) :=
  ⟨by decide, C8_dnom_bounds intDiv [10, 20, 30] 1 1 (by decide)⟩

/-- C9: the output stream is independent of the initial contents of the
`ops` ring buffer handed to `StackBlur::new`: `init` clears and re-sizes the
ring before any use, so two runs differing only in the initial deque produce
identical outputs at every fuel. -/
theorem C9_ops_independent {T : Type} [AddCommGroup T] (dv : T → Nat → T) (l : List T)
    (r : Nat) (ops0 ops0' : List T) (fuel : Nat) :
    StackBlur.runBlur dv fuel (StackBlur.new l r ops0) =
      StackBlur.runBlur dv fuel (StackBlur.new l r ops0') := by
  cases fuel with
  | zero => rfl
  | succ m =>
    by_cases hl : l = []
    · subst hl
      conv_lhs => unfold StackBlur.runBlur
      conv_rhs => unfold StackBlur.runBlur
      rw [StackBlur.next_new_nil, StackBlur.next_new_nil]
    · conv_lhs => unfold StackBlur.runBlur
      conv_rhs => unfold StackBlur.runBlur
      rw [StackBlur.next_new_eq dv l r ops0 hl, StackBlur.next_new_eq dv l r ops0' hl]

/-- C10: every value the ARGB filter emits has all four lanes within
`[laneMin, laneMax]` of the input buffer's lanes, hence within `0..=255`,
and the `as u8` cast in `to_argb` never wraps: recomposing and decomposing
the emitted pixel is exact. -/
theorem C10_lane_bounds_round_trip (ps : List Nat) (r k : Nat) (hk : k < ps.length) :
    (∀ i : Fin 4,
        laneMin ps ≤ (argbOutputs ps r).getD k 0 i ∧
        (argbOutputs ps r).getD k 0 i ≤ laneMax ps ∧
        0 ≤ (argbOutputs ps r).getD k 0 i ∧
        (argbOutputs ps r).getD k 0 i < 256) ∧
    from_argb (to_argb ((argbOutputs ps r).getD k 0)) = (argbOutputs ps r).getD k 0 := by
  rw [argbOutputs_getD ps r k hk]
  have hb := fun i => argb_lane_bounds ps r k hk i
  have hmin := laneMin_nonneg ps
  have hmax := laneMax_le_255 ps
  constructor
  · intro i
    obtain ⟨h1, h2⟩ := hb i
    exact ⟨h1, h2, le_trans hmin h1, by omega⟩
  · refine from_to_argb _ fun i => ?_
    obtain ⟨h1, h2⟩ := hb i
    exact ⟨le_trans hmin h1, by omega⟩

/-- Witness for C10 at a concrete buffer. -/
theorem C10_lane_bounds_round_trip_witness :
    (0 : Nat) < ([5, 6] : List Nat).length ∧
    ((∀ i : Fin 4,
        laneMin [5, 6] ≤ (argbOutputs [5, 6] 1).getD 0 0 i ∧
        (argbOutputs [5, 6] 1).getD 0 0 i ≤ laneMax [5, 6] ∧
        0 ≤ (argbOutputs [5, 6] 1).getD 0 0 i ∧
        (argbOutputs [5, 6] 1).getD 0 0 i < 256) ∧
      from_argb (to_argb ((argbOutputs [5, 6] 1).getD 0 0)) = (argbOutputs [5, 6] 1).getD 0 0) :=
  ⟨by decide, C10_lane_bounds_round_trip [5, 6] 1 0 (by decide)⟩
